import Mathlib

/-!
Verification of `scripts/make_wordcloud.py`.

The script is a linear pipeline: input discovery, LaTeX/PDF text
extraction, regex-based cleaning and tokenization, stopword filtering,
frequency counting and rendering.  This file gives a shallow embedding of
the script's pure core (`_strip_latex`, `_clean_text`, the frequency
tables of `main`) and an explicit state model of `main`'s control flow,
and proves the specification's claims about them.

Strings are modelled as `String` / `List Char`; Python `re` substitutions
are modelled as single-pass character scanners that reproduce the regex
engine's leftmost, (non-)greedy semantics for the concrete patterns used
by the script.  Python's `\s` is modelled as ASCII whitespace and
`str.lower` as the ASCII A-Z to a-z map; the script only ever applies the
latter to strings already reduced to ASCII letters and spaces.
-/

/-! ## Character classes: `[A-Za-z]`, `\s`, `str.lower` -/

/-- The 26 uppercase/lowercase ASCII letter pairs used by `str.lower`. -/
def lowerPairs : List (Char × Char) :=
  [('A','a'),('B','b'),('C','c'),('D','d'),('E','e'),('F','f'),('G','g'),
   ('H','h'),('I','i'),('J','j'),('K','k'),('L','l'),('M','m'),('N','n'),
   ('O','o'),('P','p'),('Q','q'),('R','r'),('S','s'),('T','t'),('U','u'),
   ('V','v'),('W','w'),('X','x'),('Y','y'),('Z','z')]

def upperChars : List Char := lowerPairs.map Prod.fst

def lowerChars : List Char := lowerPairs.map Prod.snd

/-- ASCII whitespace characters of the regex class `\s`. -/
def wsChars : List Char := [' ', '\t', '\n', '\r', '\x0b', '\x0c']

def isUpperAlpha (c : Char) : Bool := decide (c ∈ upperChars)

def isLowerAlpha (c : Char) : Bool := decide (c ∈ lowerChars)

/-- Regex class `[A-Za-z]`. -/
def isAlphaChar (c : Char) : Bool := isUpperAlpha c || isLowerAlpha c

/-- Regex class `\s` (ASCII). -/
def isWs (c : Char) : Bool := decide (c ∈ wsChars)

/-- Python `str.lower` on a single character (A-Z mapped to a-z). -/
def pyLowerChar (c : Char) : Char :=
  match lowerPairs.find? (fun p => p.fst == c) with
  | some p => p.snd
  | none => c

/-! ## `_clean_text` (make_wordcloud.py lines 32-37) -/

/-- Line 34, `re.sub(r"[^A-Za-z\s]", " ", text)`: every character that is
neither an ASCII letter nor whitespace becomes a space. -/
def keepLetters (l : List Char) : List Char :=
  l.map (fun c => if isAlphaChar c || isWs c then c else ' ')

/-- Line 35, `re.sub(r"\s+", " ", text)`: each maximal nonempty run of
whitespace is replaced by a single space.  The flag records whether the
scanner is inside a whitespace run. -/
def collapseWs : Bool → List Char → List Char
  | _, [] => []
  | inRun, c :: cs =>
    if isWs c then
      if inRun then collapseWs true cs else ' ' :: collapseWs true cs
    else c :: collapseWs false cs

/-- Trailing-whitespace removal (half of Python `str.strip`). -/
def dropTrailingWs : List Char → List Char
  | [] => []
  | c :: cs =>
    match dropTrailingWs cs with
    | [] => if isWs c then [] else [c]
    | r => c :: r

/-- Python `str.strip`: drop whitespace from both ends. -/
def stripEnds (l : List Char) : List Char :=
  dropTrailingWs (l.dropWhile isWs)

/-- Python `str.lower` (on the ASCII letters-and-spaces alphabet the
script applies it to). -/
def lowerAll (l : List Char) : List Char := l.map pyLowerChar

/-- Python `str.split(" ")`: split on every single space; splitting the
empty string yields `[[]]`, like `"".split(" ") == ['']`. -/
def splitSpace : List Char → List (List Char)
  | [] => [[]]
  | c :: cs =>
    if c = ' ' then [] :: splitSpace cs
    else
      match splitSpace cs with
      | w :: ws => (c :: w) :: ws
      | [] => [[c]]

/-- The normalized character sequence built by `_clean_text` before the
final split: lines 34-35 of the script. -/
def normChars (text : String) : List Char :=
  lowerAll (stripEnds (collapseWs false (keepLetters text.data)))

/-- `_clean_text(text, min_len)` (lines 32-37): keep letters and spaces,
collapse whitespace, strip, lowercase, split on single spaces, and keep
the words of length at least `min_len`. -/
def clean_text (text : String) (min_len : Int) : List String :=
  ((splitSpace (normChars text)).map (fun w => String.mk w)).filter
    (fun w => min_len ≤ (w.length : Int))

/-! ## `_strip_latex` (make_wordcloud.py lines 17-29) -/

/-- Scanner modes for the comment regex `(?m)^%.*$`: at line start, in
the middle of a line, or inside a matched comment line. -/
inductive CMode where
  | start
  | mid
  | comment
  deriving DecidableEq

/-- Line 19, `re.sub(r"(?m)^%.*$", " ", text)`: a line whose first
character is `%` is replaced (up to, but not including, the newline) by a
single space. -/
def stripCommentsAux : CMode → List Char → List Char
  | _, [] => []
  | m, c :: cs =>
    match m with
    | .start =>
      if c = '%' then ' ' :: stripCommentsAux .comment cs
      else if c = '\n' then c :: stripCommentsAux .start cs
      else c :: stripCommentsAux .mid cs
    | .mid =>
      if c = '\n' then c :: stripCommentsAux .start cs
      else c :: stripCommentsAux .mid cs
    | .comment =>
      if c = '\n' then c :: stripCommentsAux .start cs
      else stripCommentsAux .comment cs

def stripComments (s : String) : String :=
  String.mk (stripCommentsAux .start s.data)

/-- Line 21, `re.sub(r"\$.*?\$", " ", text)`: non-greedy inline math.  A
`$` opens a candidate match; the buffer holds the characters scanned
since then.  A closing `$` on the same line ends the match (replaced by
one space); a newline or the end of input makes the candidate fail, and
the scan resumes after the opening `$` (the buffered characters contain
no `$`, so they are emitted literally). -/
def stripInlineMathAux : Option (List Char) → List Char → List Char
  | none, [] => []
  | some buf, [] => '$' :: buf
  | none, c :: cs =>
    if c = '$' then stripInlineMathAux (some []) cs
    else c :: stripInlineMathAux none cs
  | some buf, c :: cs =>
    if c = '$' then ' ' :: stripInlineMathAux none cs
    else if c = '\n' then '$' :: buf ++ '\n' :: stripInlineMathAux none cs
    else stripInlineMathAux (some (buf ++ [c])) cs

/-- Line 22, `re.sub(r"\\\[.*?\\\]", " ", text, flags=re.S)`: non-greedy
display math; the dot matches newlines.  A `\[` opens a candidate; the
first following `\]` closes it.  With no closer anywhere, the buffered
text can contain no `\]`, so no later match was possible either and it is
emitted literally. -/
def stripDisplayMathAux : Option (List Char) → List Char → List Char
  | none, [] => []
  | some buf, [] => '\\' :: '[' :: buf
  | some _, '\\' :: ']' :: cs => ' ' :: stripDisplayMathAux none cs
  | some buf, c :: cs => stripDisplayMathAux (some (buf ++ [c])) cs
  | none, '\\' :: '[' :: cs => stripDisplayMathAux (some []) cs
  | none, c :: cs => c :: stripDisplayMathAux none cs

/-- The alternation `cite|ref|label|eqref|footnote|url|href` of line 24,
in the regex's order. -/
def namedCmdWords : List (List Char) :=
  ["cite".data, "ref".data, "label".data, "eqref".data,
   "footnote".data, "url".data, "href".data]

/-- The lazy argument `\x7b.*?\x7d` of line 24 (no re.S): scan to the next
closing brace, failing at a newline or the end of input. -/
def findCloseBrace : List Char → Option (List Char)
  | [] => none
  | c :: cs =>
    if c = '\x7d' then some cs
    else if c = '\n' then none
    else findCloseBrace cs

/-- Try one alternative of line 24 at the position after the backslash:
the word, an opening brace, and a lazily matched closing brace. -/
def tryNamedWord (w cs : List Char) : Option (List Char) :=
  if w.isPrefixOf cs then
    match cs.drop w.length with
    | c :: rest => if c = '\x7b' then findCloseBrace rest else none
    | [] => none
  else none

/-- The regex engine's backtracking over the alternation of line 24: the
first alternative that completes an overall match wins. -/
def tryNamedCmd : List (List Char) → List Char → Option (List Char)
  | [], _ => none
  | w :: ws, cs =>
    match tryNamedWord w cs with
    | some r => some r
    | none => tryNamedCmd ws cs

/-- Line 24, `re.sub(r"\\(cite|ref|label|eqref|footnote|url|href)\x7b.*?\x7d",
" ", text)`.  Fuel-driven scan: each step consumes at least one character,
so `length + 1` fuel always suffices. -/
def stripNamedCmdsAux : Nat → List Char → List Char
  | 0, l => l
  | _ + 1, [] => []
  | n + 1, c :: cs =>
    if c = '\\' then
      match tryNamedCmd namedCmdWords cs with
      | some rest => ' ' :: stripNamedCmdsAux n rest
      | none => c :: stripNamedCmdsAux n cs
    else c :: stripNamedCmdsAux n cs

/-- A greedy optional group `(?:\[[^\]]*\])?` or `(?:\x7b[^\x7d]*\x7d)?`:
if the opener is next and a closer exists (the negated class admits
newlines), consume through the closer, otherwise match empty. -/
def scanToChar (d : Char) : List Char → Option (List Char)
  | [] => none
  | c :: cs => if c = d then some cs else scanToChar d cs

def tryOptGroup (opn cls : Char) (cs : List Char) : List Char :=
  match cs with
  | c :: rest =>
    if c = opn then
      match scanToChar cls rest with
      | some r => r
      | none => cs
    else cs
  | [] => cs

/-- The body of line 26's pattern after the backslash: one or more
letters (greedy), an optional star, an optional bracket group and an
optional brace group. -/
def tryGenericCmd (cs : List Char) : Option (List Char) :=
  match cs with
  | c :: _ =>
    if isAlphaChar c then
      let r1 := cs.dropWhile isAlphaChar
      let r2 := match r1 with
        | '*' :: t => t
        | _ => r1
      some (tryOptGroup '\x7b' '\x7d' (tryOptGroup '[' ']' r2))
    else none
  | [] => none

/-- Line 26, `re.sub(r"\\[a-zA-Z]+\*?(?:\[[^\]]*\])?(?:\x7b[^\x7d]*\x7d)?",
" ", text)`, removing the remaining commands. -/
def stripGenericCmdsAux : Nat → List Char → List Char
  | 0, l => l
  | _ + 1, [] => []
  | n + 1, c :: cs =>
    if c = '\\' then
      match tryGenericCmd cs with
      | some rest => ' ' :: stripGenericCmdsAux n rest
      | none => c :: stripGenericCmdsAux n cs
    else c :: stripGenericCmdsAux n cs

/-- Line 28, `text.replace("\x7b", " ").replace("\x7d", " ")`. -/
def stripBraces (l : List Char) : List Char :=
  l.map (fun c => if c = '\x7b' || c = '\x7d' then ' ' else c)

/-- `_strip_latex(text)` (lines 17-29): the five regex substitutions and
the brace removal, in the script's order. -/
def strip_latex (text : String) : String :=
  let t1 := stripCommentsAux .start text.data
  let t2 := stripInlineMathAux none t1
  let t3 := stripDisplayMathAux none t2
  let t4 := stripNamedCmdsAux (t3.length + 1) t3
  let t5 := stripGenericCmdsAux (t4.length + 1) t4
  String.mk (stripBraces t5)

/-! ## The concrete LaTeX example of the specification (claim C1) -/

/-- The input string of the specification's concrete LaTeX example. -/
def c1_input : String :=
  "\\cite\x7bfoo\x7d Hello World % a comment\n$x^2$ more text"

/-! ## Line-level behaviour of the comment pass (claim C2) -/

/-- Whether the first non-whitespace character of a (newline-free) line
is `%` — the condition the specification claims triggers comment
removal. -/
def firstNonSpacePercent (l : List Char) : Bool :=
  match l.dropWhile isWs with
  | c :: _ => c = '%'
  | [] => false

/-- Join newline-free lines back into a character stream. -/
def joinLines : List (List Char) → List Char
  | [] => []
  | [l] => l
  | l :: ls => l ++ '\n' :: joinLines ls

/-- Split a character stream into its `\n`-separated lines. -/
def splitLines : List Char → List (List Char)
  | [] => [[]]
  | c :: cs =>
    if c = '\n' then [] :: splitLines cs
    else
      match splitLines cs with
      | w :: ws => (c :: w) :: ws
      | [] => [[c]]

/-- The comment pass as the specification describes it: every line whose
first non-space character is `%` is replaced by a single space.  Stated
for comparison with `stripComments`, which embeds the code's regex. -/
def commentLinesRemovedSpec (text : String) : String :=
  String.mk (joinLines ((splitLines text.data).map
    (fun l => if firstNonSpacePercent l then [' '] else l)))

/-! ## Token well-formedness and joining -/

/-- "One or more lowercase ASCII letters": the token shape the
specification claims for every cleaner output. -/
def lowerWord (t : String) : Bool :=
  !t.data.isEmpty && t.data.all isLowerAlpha

/-- Join words with single spaces (character level). -/
def joinWords : List (List Char) → List Char
  | [] => []
  | [w] => w
  | w :: ws => w ++ ' ' :: joinWords ws

/-- Python `" ".join(tokens)`. -/
def pyJoin (tokens : List String) : String :=
  String.mk (joinWords (tokens.map String.data))

/-- No two adjacent whitespace characters. -/
def noAdjSp : List Char → Prop
  | c1 :: c2 :: t => ¬(isWs c1 = true ∧ isWs c2 = true) ∧ noAdjSp (c2 :: t)
  | _ => True

/-- The first character, if any, is not whitespace. -/
def headNotSp : List Char → Prop
  | [] => True
  | c :: _ => isWs c = false

/-- The last character, if any, is not whitespace. -/
def lastNotSp : List Char → Prop
  | [] => True
  | [c] => isWs c = false
  | _ :: t => lastNotSp t

/-! ## Frequency tables (make_wordcloud.py lines 112-114) -/

/-- Line 112, `raw_counts = Counter(all_words)`: the count of `word` in
the unfiltered token stream. -/
def raw_counts (all_words : List String) (word : String) : Nat :=
  all_words.count word

/-- Line 113, `words = [w for w in all_words if w not in stopwords]`. -/
def filtered_words (all_words stopwords : List String) : List String :=
  all_words.filter (fun x => !decide (x ∈ stopwords))

/-- Line 114, `counts = Counter(words)`: the count of `word` after
stopword removal (0 when absent). -/
def counts (all_words stopwords : List String) (word : String) : Nat :=
  (filtered_words all_words stopwords).count word

/-! ## Python string ordering and `sorted` -/

/-- Python string `<=`: lexicographic comparison by code point. -/
def charListLe : List Char → List Char → Bool
  | [], _ => true
  | _ :: _, [] => false
  | a :: as, b :: bs => if a = b then charListLe as bs else decide (a < b)

/-- The ordering used by `sorted` on the paths of one directory. -/
def pyLeRel (a b : String) : Prop := charListLe a.data b.data = true

instance : DecidableRel pyLeRel := fun a b => by
  unfold pyLeRel; infer_instance

/-- Python `sorted` (a stable sort by `pyLeRel`). -/
def pySorted (l : List String) : List String :=
  l.insertionSort pyLeRel

/-! ## The model of `main` (make_wordcloud.py lines 40-138) -/

/-- The command-line arguments of lines 41-62, with their defaults. -/
structure Args where
  input : String := "papers"
  output : String := "wordcloud.png"
  min_len : Int := 3
  max_words : Int := 90
  print_top : Int := 0
  debug_words : String := ""
  stopwords : String := ""
  extra_stopwords : String := ""

/-- The environment `main` runs in: which optional dependencies import
successfully, what the input path looks like, the contents of text and
PDF files, and the stopword files present. -/
structure World where
  hasWordcloud : Bool
  hasPdfminer : Bool
  builtinStopwords : List String
  inputExists : Bool
  inputIsDir : Bool
  dirEntries : List String
  readText : String → String
  pdfText : String → String
  stopExists : String → Bool
  stopRead : String → String

/-- Glob pattern `*.tex`: `*` matches any (possibly empty) sequence of
non-separator characters, so a name matches iff it ends in `.tex`. -/
def hasSuffix (l suff : List Char) : Bool :=
  suff.reverse.isPrefixOf l.reverse

def texName (f : String) : Bool := hasSuffix f.data ".tex".data

def pdfName (f : String) : Bool := hasSuffix f.data ".pdf".data

/-- `input_dir.glob(pattern)` (lines 77-78): globbing a path that is not
a directory yields nothing (pathlib returns an empty iterator there). -/
def dirGlob (w : World) (pat : String → Bool) : List String :=
  if w.inputIsDir then w.dirEntries.filter pat else []

/-- Line 77, `tex_files = sorted(input_dir.glob("*.tex"))`. -/
def texFilesOf (w : World) : List String := pySorted (dirGlob w texName)

/-- Line 78, `pdfs = sorted(input_dir.glob("*.pdf"))`. -/
def pdfsOf (w : World) : List String := pySorted (dirGlob w pdfName)

/-- The conventional fallback `Path(__file__).resolve().parent / ".." /
"stopwords.txt"` of line 84, modelled as a fixed path string. -/
def fallbackStopPath : String := "scripts/../stopwords.txt"

/-- Line 84: the explicit `--stopwords` path when nonempty, otherwise
the conventional fallback path. -/
def stopPathOf (args : Args) : String :=
  if args.stopwords ≠ "" then args.stopwords else fallbackStopPath

/-- Python `str.strip()`. -/
def pyStrip (s : String) : String := String.mk (stripEnds s.data)

/-- Python `str.lower()` on stopword entries (ASCII letters). -/
def pyLowerStr (s : String) : String := String.mk (lowerAll s.data)

/-- Python `str.splitlines()` for newline-separated text: like splitting
on `\n` but without a trailing empty line. -/
def pySplitlines (s : String) : List String :=
  if s.data = [] then []
  else
    let parts := (splitLines s.data).map String.mk
    if parts.getLast? = some "" then parts.dropLast else parts

/-- Python `str.split(",")`: split at every comma. -/
def splitCommas : List Char → List (List Char)
  | [] => [[]]
  | c :: cs =>
    if c = ',' then [] :: splitCommas cs
    else
      match splitCommas cs with
      | w :: ws => (c :: w) :: ws
      | [] => [[c]]

/-- Line 86: `w.strip().lower() for w in stop_path.read_text().splitlines()
if w.strip()`. -/
def parseStopFile (contents : String) : List String :=
  (pySplitlines contents).filterMap
    (fun w => if pyStrip w = "" then none else some (pyLowerStr (pyStrip w)))

/-- Lines 90-91: `w.strip().lower() for w in args.extra_stopwords.split(",")
if w.strip()`, guarded by `if args.extra_stopwords`. -/
def parseExtra (s : String) : List String :=
  if s = "" then []
  else ((splitCommas s.data).map String.mk).filterMap
    (fun w => if pyStrip w = "" then none else some (pyLowerStr (pyStrip w)))

/-- Lines 83-91: the stopword set (modelled as a list; only membership is
used downstream), assuming the code did not abort: the library defaults,
the stopword file when its path exists, and the inline extras. -/
def stopwordsOf (args : Args) (w : World) : List String :=
  (if w.stopExists (stopPathOf args) then
    w.builtinStopwords ++ parseStopFile (w.stopRead (stopPathOf args))
   else w.builtinStopwords) ++ parseExtra args.extra_stopwords

/-- Lines 93-110: the concatenated token stream, over the LaTeX sources
when any exist, else over the PDFs. -/
def allWordsOf (args : Args) (w : World) : List String :=
  if (texFilesOf w).isEmpty then
    ((pdfsOf w).map (fun f => clean_text (w.pdfText f) args.min_len)).flatten
  else
    ((texFilesOf w).map
      (fun f => clean_text (strip_latex (w.readText f)) args.min_len)).flatten

/-- How a run of `main` ends: one of the five error returns, or success
with the processed file list, the branch taken, the token stream, the
stopword list and the output path written. -/
inductive RunOutcome where
  | missingWordcloud
  | inputNotFound
  | noInputFiles
  | stopwordsNotFound
  | missingPdfminer
  | done (processed : List String) (usedTex : Bool) (all_words : List String)
      (stopwords : List String) (output : String)
  deriving DecidableEq

/-- `main` (lines 40-138): the dependency check, the input-directory
check, file discovery, the stopword stage, per-branch extraction, and
rendering, with the code's early returns in the code's order. -/
def mainModel (args : Args) (w : World) : RunOutcome :=
  if !w.hasWordcloud then .missingWordcloud
  else if !w.inputExists then .inputNotFound
  else if (texFilesOf w).isEmpty && (pdfsOf w).isEmpty then .noInputFiles
  else if !w.stopExists (stopPathOf args) && !(args.stopwords == "") then
    .stopwordsNotFound
  else if (texFilesOf w).isEmpty && !w.hasPdfminer then .missingPdfminer
  else
    .done (if (texFilesOf w).isEmpty then pdfsOf w else texFilesOf w)
      (!(texFilesOf w).isEmpty) (allWordsOf args w) (stopwordsOf args w)
      args.output

/-- The process exit code of a run (line 142, `SystemExit(main())`). -/
def exitCode : RunOutcome → Nat
  | .done _ _ _ _ _ => 0
  | _ => 1

/-- The PNG path written by `wc.to_file` (line 125), if the run got
there. -/
def pngWritten : RunOutcome → Option String
  | .done _ _ _ _ out => some out
  | _ => none

/-! ## Concrete fixture environments -/

/-- A concrete environment: both dependencies available, an input
directory holding one LaTeX file and one PDF, no stopword files. -/
def wtWorld : World where
  hasWordcloud := true
  hasPdfminer := true
  builtinStopwords := ["the"]
  inputExists := true
  inputIsDir := true
  dirEntries := ["a.tex", "b.pdf"]
  readText := fun _ => "Hello hello world"
  pdfText := fun _ => "pdf words here"
  stopExists := fun _ => false
  stopRead := fun _ => ""

/-- The same environment with a stopword file present everywhere. -/
def wtWorldStop : World :=
  { wtWorld with stopExists := fun _ => true, stopRead := fun _ => "hello" }

/-! # Theorems -/

/-! ## Support lemmas: the comment pass -/

theorem stripCommentsAux_mid (l rest : List Char) (h : '\n' ∉ l) :
    stripCommentsAux .mid (l ++ rest) = l ++ stripCommentsAux .mid rest := by
  induction l with
  | nil => rfl
  | cons c cs ih =>
    have hc : c ≠ '\n' := fun hc => h (hc ▸ List.mem_cons_self c cs)
    have hcs : '\n' ∉ cs := fun hm => h (List.mem_cons_of_mem c hm)
    simp [stripCommentsAux, hc, ih hcs]

theorem stripCommentsAux_comment (l rest : List Char) (h : '\n' ∉ l) :
    stripCommentsAux .comment (l ++ rest) = stripCommentsAux .comment rest := by
  induction l with
  | nil => rfl
  | cons c cs ih =>
    have hc : c ≠ '\n' := fun hc => h (hc ▸ List.mem_cons_self c cs)
    have hcs : '\n' ∉ cs := fun hm => h (List.mem_cons_of_mem c hm)
    simp [stripCommentsAux, hc, ih hcs]

/-! ## Claims C1 and C2 -/

/-- C1: the specification claims that extracting
`"\cite\x7bfoo\x7d Hello World % a comment\n$x^2$ more text"` leaves no
residual comment and that tokenizing with `min_len = 3` yields
`["hello","world","more","text"]`.  False: the comment regex is anchored
at line start, the mid-line comment survives, and "comment" appears in
the token list. -/
theorem c1_token_list_counterexample :
    clean_text (strip_latex c1_input) 3 ≠ ["hello", "world", "more", "text"] := by
  decide

/-- C1 (amended): extraction removes the citation and the inline math
but keeps the mid-line comment (the comment regex only matches at line
start), and tokenizing with `min_len = 3` yields
`["hello","world","comment","more","text"]`. -/
theorem c1_extraction_tokens :
    strip_latex c1_input = "  Hello World % a comment\n  more text" ∧
      clean_text (strip_latex c1_input) 3 =
        ["hello", "world", "comment", "more", "text"] :=
  ⟨by decide, by decide⟩

/-- C2: the specification claims every line whose first non-space
character is `%` is replaced by a space, including lines with leading
whitespace.  False: on the line `" %x"` the code's comment pass (and the
whole of `_strip_latex`) is the identity, while the claimed behaviour
would produce `" "`. -/
theorem c2_indented_comment_counterexample :
    firstNonSpacePercent (" %x" : String).data = true ∧
      stripComments " %x" = " %x" ∧ strip_latex " %x" = " %x" ∧
      stripComments " %x" ≠ commentLinesRemovedSpec " %x" :=
  ⟨by decide, by decide, by decide, by decide⟩

/-- C2 (amended): the comment pass replaces with a space exactly the
lines whose first character (at column 0, with no preceding whitespace)
is `%`; all other lines, including those with whitespace before the `%`,
are kept unchanged. -/
theorem c2_comment_lines_at_line_start (lines : List (List Char))
    (h : ∀ l ∈ lines, '\n' ∉ l) :
    stripCommentsAux .start (joinLines lines) =
      joinLines (lines.map (fun l => if l.head? = some '%' then [' '] else l)) := by
  induction lines with
  | nil => rfl
  | cons l ls ih =>
    have hl : '\n' ∉ l := h l (List.mem_cons_self l ls)
    have hls : ∀ x ∈ ls, '\n' ∉ x := fun x hx => h x (List.mem_cons_of_mem l hx)
    cases ls with
    | nil =>
      cases l with
      | nil => rfl
      | cons c t =>
        have ht : '\n' ∉ t := fun hm => hl (List.mem_cons_of_mem c hm)
        by_cases hc : c = '%'
        · subst hc
          have hcc : stripCommentsAux .comment t = [] := by
            simpa [stripCommentsAux] using stripCommentsAux_comment t [] ht
          simp [joinLines, stripCommentsAux, hcc]
        · have hcn : c ≠ '\n' := fun hcn => hl (hcn ▸ List.mem_cons_self c t)
          have hmm : stripCommentsAux .mid t = t := by
            simpa [stripCommentsAux] using stripCommentsAux_mid t [] ht
          simp [joinLines, stripCommentsAux, hc, hcn, hmm]
    | cons l2 ls2 =>
      have hrec := ih hls
      cases l with
      | nil =>
        simp only [joinLines, List.map_cons, List.nil_append, List.head?_nil]
        simp [stripCommentsAux, hrec]
      | cons c t =>
        have ht : '\n' ∉ t := fun hm => hl (List.mem_cons_of_mem c hm)
        by_cases hc : c = '%'
        · subst hc
          have hcc : stripCommentsAux .comment (t ++ '\n' :: joinLines (l2 :: ls2)) =
              '\n' :: stripCommentsAux .start (joinLines (l2 :: ls2)) := by
            rw [stripCommentsAux_comment t _ ht]
            simp [stripCommentsAux]
          simp only [joinLines, List.map_cons, List.cons_append, List.head?_cons]
          simp [stripCommentsAux, hcc, hrec]
        · have hcn : c ≠ '\n' := fun hcn => hl (hcn ▸ List.mem_cons_self c t)
          have hmm : stripCommentsAux .mid (t ++ '\n' :: joinLines (l2 :: ls2)) =
              t ++ '\n' :: stripCommentsAux .start (joinLines (l2 :: ls2)) := by
            rw [stripCommentsAux_mid t _ ht]
            simp [stripCommentsAux]
          simp only [joinLines, List.map_cons, List.cons_append, List.head?_cons]
          simp [stripCommentsAux, hc, hcn, hmm, hrec]

/-- Witness for `c2_comment_lines_at_line_start` at a concrete line
list: a comment at column 0 is replaced, an indented one is kept. -/
theorem c2_comment_lines_at_line_start_witness :
    stripCommentsAux .start (joinLines [['%','a','b'], [' ','%','x'], ['h','i']]) =
      joinLines ([['%','a','b'], [' ','%','x'], ['h','i']].map
        (fun l => if l.head? = some '%' then [' '] else l)) :=
  c2_comment_lines_at_line_start [['%','a','b'], [' ','%','x'], ['h','i']] (by decide)

/-! ## Support lemmas: character classes -/

theorem isLower_not_ws (c : Char) (h : isLowerAlpha c = true) : isWs c = false := by
  have hc : c ∈ lowerChars := of_decide_eq_true h
  revert hc
  have : ∀ x ∈ lowerChars, isWs x = false := by decide
  exact this c

theorem isUpper_not_ws (c : Char) (h : isUpperAlpha c = true) : isWs c = false := by
  have hc : c ∈ upperChars := of_decide_eq_true h
  revert hc
  have : ∀ x ∈ upperChars, isWs x = false := by decide
  exact this c

theorem isAlpha_not_ws (c : Char) (h : isAlphaChar c = true) : isWs c = false := by
  rcases Bool.or_eq_true_iff.mp h with h1 | h1
  · exact isUpper_not_ws c h1
  · exact isLower_not_ws c h1

theorem isLower_not_upper (c : Char) (h : isLowerAlpha c = true) :
    isUpperAlpha c = false := by
  have hc : c ∈ lowerChars := of_decide_eq_true h
  revert hc
  have : ∀ x ∈ lowerChars, isUpperAlpha x = false := by decide
  exact this c

theorem pyLowerChar_not_upper (c : Char) (h : isUpperAlpha c = false) :
    pyLowerChar c = c := by
  unfold pyLowerChar
  have hnone : lowerPairs.find? (fun p => p.fst == c) = none := by
    rw [List.find?_eq_none]
    intro p hp hbeq
    have hpc : p.fst = c := by simpa using hbeq
    have hcu : c ∈ upperChars := hpc ▸ List.mem_map_of_mem Prod.fst hp
    simp [isUpperAlpha, hcu] at h
  rw [hnone]

theorem pyLowerChar_upper (c : Char) (h : isUpperAlpha c = true) :
    isLowerAlpha (pyLowerChar c) = true := by
  have hc : c ∈ upperChars := of_decide_eq_true h
  obtain ⟨p, hp, hpc⟩ := List.mem_map.mp hc
  have hsome : (lowerPairs.find? (fun p => p.fst == c)).isSome = true :=
    List.find?_isSome.mpr ⟨p, hp, by simp [hpc]⟩
  obtain ⟨q, hq⟩ := Option.isSome_iff_exists.mp hsome
  have hqmem : q ∈ lowerPairs := List.mem_of_find?_eq_some hq
  unfold pyLowerChar
  rw [hq]
  have : q.snd ∈ lowerChars := List.mem_map_of_mem Prod.snd hqmem
  simpa [isLowerAlpha] using this

theorem pyLowerChar_lower_id (c : Char) (h : isLowerAlpha c = true) :
    pyLowerChar c = c :=
  pyLowerChar_not_upper c (isLower_not_upper c h)

theorem pyLowerChar_space : pyLowerChar ' ' = ' ' := by decide

/-! ## Support lemmas: `splitSpace` and `joinWords` -/

theorem splitSpace_ne_nil (l : List Char) : splitSpace l ≠ [] := by
  cases l with
  | nil => simp [splitSpace]
  | cons c cs =>
    unfold splitSpace
    by_cases hc : c = ' '
    · simp [hc]
    · simp only [hc, if_false]
      cases splitSpace cs <;> simp

theorem joinWords_splitSpace (l : List Char) : joinWords (splitSpace l) = l := by
  induction l with
  | nil => rfl
  | cons c cs ih =>
    by_cases hc : c = ' '
    · subst hc
      obtain ⟨w, ws, hw⟩ : ∃ w ws, splitSpace cs = w :: ws := by
        cases h : splitSpace cs with
        | nil => exact absurd h (splitSpace_ne_nil cs)
        | cons w ws => exact ⟨w, ws, rfl⟩
      rw [hw] at ih
      simp only [splitSpace, decide_True, ite_true, if_true, hw, joinWords]
      simpa using ih
    · cases h : splitSpace cs with
      | nil => exact absurd h (splitSpace_ne_nil cs)
      | cons w ws =>
        rw [h] at ih
        cases ws with
        | nil =>
          simp only [splitSpace, if_neg hc, h, joinWords] at ih ⊢
          simpa using ih
        | cons w2 ws2 =>
          simp only [splitSpace, if_neg hc, h, joinWords, List.cons_append] at ih ⊢
          simpa using ih

theorem splitSpace_no_space (w : List Char) (h : ∀ c ∈ w, c ≠ ' ') :
    splitSpace w = [w] := by
  induction w with
  | nil => rfl
  | cons c cs ih =>
    have hc : c ≠ ' ' := h c (List.mem_cons_self c cs)
    have hcs := ih (fun x hx => h x (List.mem_cons_of_mem c hx))
    simp [splitSpace, hc, hcs]

theorem splitSpace_word_append (w rest : List Char) (h : ∀ c ∈ w, c ≠ ' ') :
    splitSpace (w ++ ' ' :: rest) = w :: splitSpace rest := by
  induction w with
  | nil => simp [splitSpace]
  | cons c cs ih =>
    have hc : c ≠ ' ' := h c (List.mem_cons_self c cs)
    have hcs := ih (fun x hx => h x (List.mem_cons_of_mem c hx))
    simp [splitSpace, hc, hcs]

theorem splitSpace_joinWords (ws : List (List Char)) (h0 : ws ≠ [])
    (h : ∀ w ∈ ws, ∀ c ∈ w, c ≠ ' ') : splitSpace (joinWords ws) = ws := by
  induction ws with
  | nil => exact absurd rfl h0
  | cons w ws2 ih =>
    cases ws2 with
    | nil =>
      simp only [joinWords]
      exact splitSpace_no_space w (h w (List.mem_cons_self w []))
    | cons w2 t =>
      have hrec := ih (by simp) (fun x hx => h x (List.mem_cons_of_mem w hx))
      simp only [joinWords]
      rw [splitSpace_word_append w _ (h w (List.mem_cons_self w _)), hrec]

theorem mem_splitSpace (l : List Char) :
    ∀ w ∈ splitSpace l, ∀ c ∈ w, c ∈ l ∧ c ≠ ' ' := by
  induction l with
  | nil =>
    intro w hw c hc
    simp only [splitSpace, List.mem_singleton] at hw
    subst hw
    simp at hc
  | cons a cs ih =>
    intro w hw c hc
    by_cases ha : a = ' '
    · rw [ha] at hw ⊢
      simp only [splitSpace, if_true, List.mem_cons, decide_True, ite_true] at hw
      rcases hw with hw | hw
      · subst hw; simp at hc
      · obtain ⟨hcl, hcs⟩ := ih w hw c hc
        exact ⟨List.mem_cons_of_mem _ hcl, hcs⟩
    · cases h : splitSpace cs with
      | nil => exact absurd h (splitSpace_ne_nil cs)
      | cons v vs =>
        simp only [splitSpace, if_neg ha, h, List.mem_cons] at hw
        rcases hw with hw | hw
        · subst hw
          rcases List.mem_cons.mp hc with hc | hc
          · subst hc; exact ⟨List.mem_cons_self _ _, ha⟩
          · obtain ⟨hcl, hcs⟩ := ih v (h ▸ List.mem_cons_self v vs) c hc
            exact ⟨List.mem_cons_of_mem _ hcl, hcs⟩
        · obtain ⟨hcl, hcs⟩ := ih w (h ▸ List.mem_cons_of_mem v hw) c hc
          exact ⟨List.mem_cons_of_mem _ hcl, hcs⟩

/-! ## Support lemmas: the whitespace predicates -/

theorem noAdjSp_tail {c : Char} {t : List Char} (h : noAdjSp (c :: t)) :
    noAdjSp t := by
  cases t with
  | nil => trivial
  | cons d t2 => exact h.2

theorem noAdjSp_cons (c : Char) (l : List Char) (h1 : noAdjSp l)
    (h2 : headNotSp l ∨ isWs c = false) : noAdjSp (c :: l) := by
  cases l with
  | nil => trivial
  | cons d t =>
    refine ⟨?_, h1⟩
    rintro ⟨hc, hd⟩
    rcases h2 with h2 | h2
    · simp only [headNotSp] at h2
      exact absurd hd (by simp [h2])
    · exact absurd hc (by simp [h2])

theorem noAdjSp_pair {c d : Char} {t : List Char} (h : noAdjSp (c :: d :: t)) :
    ¬(isWs c = true ∧ isWs d = true) := h.1

theorem lastNotSp_tail {c : Char} {t : List Char} (h : lastNotSp (c :: t)) :
    lastNotSp t := by
  cases t with
  | nil => trivial
  | cons d t2 => exact h

theorem lastNotSp_cons {c : Char} {t : List Char} (h : lastNotSp t) (ht : t ≠ []) :
    lastNotSp (c :: t) := by
  cases t with
  | nil => exact absurd rfl ht
  | cons d t2 => exact h

theorem noAdjSp_of_no_ws (l : List Char) (h : ∀ c ∈ l, isWs c = false) :
    noAdjSp l := by
  induction l with
  | nil => trivial
  | cons c t ih =>
    refine noAdjSp_cons c t (ih (fun x hx => h x (List.mem_cons_of_mem c hx))) ?_
    exact Or.inr (h c (List.mem_cons_self c t))

theorem lastNotSp_of_no_ws (l : List Char) (h : ∀ c ∈ l, isWs c = false) :
    lastNotSp l := by
  induction l with
  | nil => trivial
  | cons c t ih =>
    cases t with
    | nil => exact h c (List.mem_cons_self c [])
    | cons d t2 =>
      exact lastNotSp_cons (ih (fun x hx => h x (List.mem_cons_of_mem c hx))) (by simp)

theorem lastNotSp_cons_iff {c : Char} {t : List Char} (ht : t ≠ []) :
    lastNotSp (c :: t) ↔ lastNotSp t := by
  cases t with
  | nil => exact absurd rfl ht
  | cons d t2 => exact Iff.rfl

theorem lastNotSp_append (l1 l2 : List Char) (h : l2 ≠ []) :
    lastNotSp (l1 ++ l2) ↔ lastNotSp l2 := by
  induction l1 with
  | nil => simp
  | cons c t ih =>
    have hne : t ++ l2 ≠ [] := fun hx => h (List.append_eq_nil.mp hx).2
    rw [List.cons_append, lastNotSp_cons_iff hne, ih]

/-! ## Support lemmas: `collapseWs` -/

theorem collapseWs_chars (b : Bool) (l : List Char) :
    ∀ c ∈ collapseWs b l, (c ∈ l ∧ isWs c = false) ∨ c = ' ' := by
  induction l generalizing b with
  | nil => intro c hc; simp [collapseWs] at hc
  | cons a cs ih =>
    intro c hc
    by_cases ha : isWs a = true
    · rcases hb : b with hb1 | hb1
      · rw [hb] at hc  -- b = false
        simp only [collapseWs, ha, if_true, ite_true, Bool.false_eq_true, if_false,
          ite_false] at hc
        rcases List.mem_cons.mp hc with hc | hc
        · exact Or.inr hc
        · rcases ih true c hc with ⟨h1, h2⟩ | h1
          · exact Or.inl ⟨List.mem_cons_of_mem a h1, h2⟩
          · exact Or.inr h1
      · rw [hb] at hc
        simp only [collapseWs, ha, if_true, ite_true] at hc
        rcases ih true c hc with ⟨h1, h2⟩ | h1
        · exact Or.inl ⟨List.mem_cons_of_mem a h1, h2⟩
        · exact Or.inr h1
    · simp only [collapseWs, ha, Bool.false_eq_true, if_false, ite_false] at hc
      rcases List.mem_cons.mp hc with hc | hc
      · subst hc
        exact Or.inl ⟨List.mem_cons_self _ _, by simpa using ha⟩
      · rcases ih false c hc with ⟨h1, h2⟩ | h1
        · exact Or.inl ⟨List.mem_cons_of_mem a h1, h2⟩
        · exact Or.inr h1

theorem collapseWs_true_headNotSp (l : List Char) :
    headNotSp (collapseWs true l) := by
  induction l with
  | nil => trivial
  | cons a cs ih =>
    by_cases ha : isWs a = true
    · simpa [collapseWs, ha] using ih
    · simp only [collapseWs, ha, Bool.false_eq_true, if_false, ite_false]
      simpa [headNotSp] using ha

theorem collapseWs_noAdj (b : Bool) (l : List Char) : noAdjSp (collapseWs b l) := by
  induction l generalizing b with
  | nil => trivial
  | cons a cs ih =>
    by_cases ha : isWs a = true
    · rcases b with _ | _
      · simp only [collapseWs, ha, if_true, ite_true, Bool.false_eq_true, if_false,
          ite_false]
        exact noAdjSp_cons ' ' _ (ih true) (Or.inl (collapseWs_true_headNotSp cs))
      · simpa [collapseWs, ha] using ih true
    · simp only [collapseWs, ha, Bool.false_eq_true, if_false, ite_false]
      exact noAdjSp_cons a _ (ih false) (Or.inr (by simpa using ha))

theorem collapseWs_id (l : List Char) (hch : ∀ c ∈ l, isWs c = true → c = ' ')
    (hadj : noAdjSp l) :
    collapseWs false l = l ∧ (headNotSp l → collapseWs true l = l) := by
  induction l with
  | nil => exact ⟨rfl, fun _ => rfl⟩
  | cons a cs ih =>
    have hch2 : ∀ c ∈ cs, isWs c = true → c = ' ' :=
      fun x hx => hch x (List.mem_cons_of_mem a hx)
    have ihp := ih hch2 (noAdjSp_tail hadj)
    by_cases ha : isWs a = true
    · have ha2 : a = ' ' := hch a (List.mem_cons_self a cs) ha
      have hcs : headNotSp cs := by
        cases cs with
        | nil => trivial
        | cons d t =>
          have := noAdjSp_pair hadj
          simp only [headNotSp]
          by_cases hd : isWs d = true
          · exact absurd ⟨ha, hd⟩ this
          · simpa using hd
      constructor
      · simp only [collapseWs, ha, if_true, ite_true, Bool.false_eq_true, if_false,
          ite_false]
        rw [ihp.2 hcs, ha2]
      · intro hhead
        simp only [headNotSp] at hhead
        rw [ha] at hhead
        exact absurd hhead (by simp)
    · constructor
      · simp only [collapseWs, ha, Bool.false_eq_true, if_false, ite_false]
        rw [ihp.1]
      · intro _
        simp only [collapseWs, ha, Bool.false_eq_true, if_false, ite_false]
        rw [ihp.1]

/-! ## Support lemmas: `stripEnds` -/

theorem dropWhileWs_headNotSp (l : List Char) :
    headNotSp (l.dropWhile isWs) := by
  induction l with
  | nil => trivial
  | cons c cs ih =>
    by_cases hc : isWs c = true
    · simpa [List.dropWhile, hc] using ih
    · simp [List.dropWhile, hc, headNotSp]

theorem dropWhileWs_mem {c : Char} (l : List Char)
    (h : c ∈ l.dropWhile isWs) : c ∈ l :=
  (List.dropWhile_sublist isWs).subset h

theorem dropWhileWs_noAdj (l : List Char) (h : noAdjSp l) :
    noAdjSp (l.dropWhile isWs) := by
  induction l with
  | nil => trivial
  | cons c cs ih =>
    by_cases hc : isWs c = true
    · simpa [List.dropWhile, hc] using ih (noAdjSp_tail h)
    · simpa [List.dropWhile, hc] using h

theorem dropWhileWs_lastNotSp (l : List Char) (h : lastNotSp l) :
    lastNotSp (l.dropWhile isWs) := by
  induction l with
  | nil => trivial
  | cons c cs ih =>
    by_cases hc : isWs c = true
    · simpa [List.dropWhile, hc] using ih (lastNotSp_tail h)
    · simpa [List.dropWhile, hc] using h

theorem dropTrailingWs_lastNotSp (l : List Char) :
    lastNotSp (dropTrailingWs l) := by
  induction l with
  | nil => trivial
  | cons c cs ih =>
    cases h : dropTrailingWs cs with
    | nil =>
      by_cases hc : isWs c = true
      · simp only [dropTrailingWs, h, hc, if_true, ite_true]
        trivial
      · simp only [dropTrailingWs, h, hc, Bool.false_eq_true, if_false, ite_false]
        simpa [lastNotSp] using hc
    | cons d t =>
      rw [h] at ih
      simp only [dropTrailingWs, h]
      exact lastNotSp_cons ih (by simp)

theorem dropTrailingWs_cons_struct (c : Char) (cs : List Char) :
    dropTrailingWs (c :: cs) = [] ∨
      ∃ t, dropTrailingWs (c :: cs) = c :: t := by
  cases h : dropTrailingWs cs with
  | nil =>
    by_cases hc : isWs c = true
    · exact Or.inl (by simp [dropTrailingWs, h, hc])
    · exact Or.inr ⟨[], by simp [dropTrailingWs, h, hc]⟩
  | cons d t => exact Or.inr ⟨d :: t, by simp [dropTrailingWs, h]⟩

theorem dropTrailingWs_mem {c : Char} (l : List Char)
    (h : c ∈ dropTrailingWs l) : c ∈ l := by
  induction l with
  | nil => simp [dropTrailingWs] at h
  | cons a cs ih =>
    cases he : dropTrailingWs cs with
    | nil =>
      simp only [dropTrailingWs, he] at h
      by_cases ha : isWs a = true
      · simp [ha] at h
      · simp only [ha, Bool.false_eq_true, if_false, ite_false,
          List.mem_singleton] at h
        exact h ▸ List.mem_cons_self _ _
    | cons d t =>
      simp only [dropTrailingWs, he] at h
      rcases List.mem_cons.mp h with h1 | h1
      · exact h1 ▸ List.mem_cons_self _ _
      · exact List.mem_cons_of_mem _ (ih (he ▸ h1))

theorem dropTrailingWs_noAdj (l : List Char) (h : noAdjSp l) :
    noAdjSp (dropTrailingWs l) := by
  induction l with
  | nil => trivial
  | cons a cs ih =>
    cases he : dropTrailingWs cs with
    | nil =>
      by_cases ha : isWs a = true
      · simp only [dropTrailingWs, he, ha, if_true, ite_true]
        trivial
      · simp only [dropTrailingWs, he, ha, Bool.false_eq_true, if_false, ite_false]
        trivial
    | cons d t =>
      have hrec := ih (noAdjSp_tail h)
      rw [he] at hrec
      simp only [dropTrailingWs, he]
      refine noAdjSp_cons a _ hrec ?_
      by_cases ha : isWs a = true
      · cases cs with
        | nil => simp [dropTrailingWs] at he
        | cons e cs2 =>
          rcases dropTrailingWs_cons_struct e cs2 with hs | ⟨t2, hs⟩
          · rw [hs] at he
            exact absurd he (by simp)
          · have hde : e = d := by
              have h12 := hs.symm.trans he
              injection h12 with h1 h2
            have hex : isWs e = false := by
              by_cases hw : isWs e = true
              · exact absurd ⟨ha, hw⟩ (noAdjSp_pair h)
              · simpa using hw
            refine Or.inl ?_
            simp only [headNotSp]
            rw [← hde]
            exact hex
      · exact Or.inr (by simpa using ha)

theorem dropTrailingWs_headNotSp (l : List Char) (h : headNotSp l) :
    headNotSp (dropTrailingWs l) := by
  cases l with
  | nil => trivial
  | cons c cs =>
    rcases dropTrailingWs_cons_struct c cs with hs | ⟨t, hs⟩
    · rw [hs]; trivial
    · rw [hs]; exact h

theorem dropTrailingWs_id (l : List Char) (h : lastNotSp l) :
    dropTrailingWs l = l := by
  induction l with
  | nil => rfl
  | cons c cs ih =>
    cases cs with
    | nil =>
      have hc : isWs c = false := h
      simp [dropTrailingWs, hc]
    | cons d t =>
      have hrec := ih (lastNotSp_tail h)
      have hstep : dropTrailingWs (c :: d :: t) =
          match dropTrailingWs (d :: t) with
          | [] => if isWs c = true then [] else [c]
          | r => c :: r := rfl
      rw [hstep, hrec]

theorem stripEnds_props (l : List Char) (hadj : noAdjSp l) :
    headNotSp (stripEnds l) ∧ lastNotSp (stripEnds l) ∧ noAdjSp (stripEnds l) :=
  ⟨dropTrailingWs_headNotSp _ (dropWhileWs_headNotSp l),
   dropTrailingWs_lastNotSp _,
   dropTrailingWs_noAdj _ (dropWhileWs_noAdj l hadj)⟩

theorem stripEnds_mem {c : Char} (l : List Char) (h : c ∈ stripEnds l) :
    c ∈ l :=
  dropWhileWs_mem l (dropTrailingWs_mem _ h)

theorem stripEnds_id (l : List Char) (h1 : headNotSp l) (h2 : lastNotSp l) :
    stripEnds l = l := by
  have hdw : l.dropWhile isWs = l := by
    cases l with
    | nil => rfl
    | cons c cs =>
      have hc : isWs c = false := h1
      simp [List.dropWhile, hc]
  unfold stripEnds
  rw [hdw, dropTrailingWs_id l h2]

/-! ## Support lemmas: `keepLetters` and `lowerAll` -/

theorem keepLetters_chars (l : List Char) :
    ∀ c ∈ keepLetters l, isAlphaChar c = true ∨ isWs c = true := by
  intro c hc
  obtain ⟨a, _, ha⟩ := List.mem_map.mp hc
  by_cases h : (isAlphaChar a || isWs a) = true
  · rw [if_pos h] at ha
    subst ha
    exact Bool.or_eq_true_iff.mp h
  · rw [if_neg h] at ha
    subst ha
    exact Or.inr (by decide)

theorem keepLetters_id (l : List Char)
    (h : ∀ c ∈ l, isAlphaChar c = true ∨ isWs c = true) : keepLetters l = l := by
  unfold keepLetters
  rw [List.map_congr_left (g := id) ?_, List.map_id]
  intro a ha
  have := h a ha
  simp only [id]
  rw [if_pos (Bool.or_eq_true_iff.mpr this)]

theorem headNotSp_map_pyLower (l : List Char)
    (hf : ∀ c ∈ l, isWs (pyLowerChar c) = isWs c) (h : headNotSp l) :
    headNotSp (lowerAll l) := by
  cases l with
  | nil => trivial
  | cons c cs =>
    have := hf c (List.mem_cons_self c cs)
    simp only [lowerAll, List.map_cons, headNotSp, this]
    exact h

theorem lastNotSp_map_pyLower (l : List Char)
    (hf : ∀ c ∈ l, isWs (pyLowerChar c) = isWs c) (h : lastNotSp l) :
    lastNotSp (lowerAll l) := by
  induction l with
  | nil => trivial
  | cons c cs ih =>
    cases cs with
    | nil =>
      have := hf c (List.mem_cons_self c [])
      simp only [lowerAll, List.map_cons, List.map_nil, lastNotSp, this]
      exact h
    | cons d t =>
      have hrec := ih (fun x hx => hf x (List.mem_cons_of_mem c hx))
        (lastNotSp_tail h)
      simpa [lowerAll, lastNotSp] using hrec

theorem noAdjSp_map_pyLower (l : List Char)
    (hf : ∀ c ∈ l, isWs (pyLowerChar c) = isWs c) (h : noAdjSp l) :
    noAdjSp (lowerAll l) := by
  induction l with
  | nil => trivial
  | cons c cs ih =>
    have hrec := ih (fun x hx => hf x (List.mem_cons_of_mem c hx))
      (noAdjSp_tail h)
    cases cs with
    | nil => trivial
    | cons d t =>
      refine ⟨?_, hrec⟩
      rintro ⟨h1, h2⟩
      rw [hf c (List.mem_cons_self c _)] at h1
      rw [hf d (List.mem_cons_of_mem c (List.mem_cons_self d t))] at h2
      exact (noAdjSp_pair h) ⟨h1, h2⟩

theorem lowerAll_id (l : List Char)
    (h : ∀ c ∈ l, isLowerAlpha c = true ∨ c = ' ') : lowerAll l = l := by
  unfold lowerAll
  rw [List.map_congr_left (g := id) ?_, List.map_id]
  intro a ha
  simp only [id]
  rcases h a ha with h1 | h1
  · exact pyLowerChar_lower_id a h1
  · rw [h1]; exact pyLowerChar_space

/-! ## Support lemmas: words of a normalized string -/

theorem splitSpace_words_aux :
    ∀ n (l : List Char), l.length ≤ n → noAdjSp l → lastNotSp l →
      ((headNotSp l → l ≠ [] → ∀ w ∈ splitSpace l, w ≠ []) ∧
       (∀ w ∈ (splitSpace l).tail, w ≠ [])) := by
  intro n
  induction n with
  | zero =>
    intro l hlen _ _
    have hl : l = [] := List.length_eq_zero.mp (Nat.le_zero.mp hlen)
    subst hl
    constructor
    · intro _ hne
      exact absurd rfl hne
    · intro w hw
      simp [splitSpace] at hw
  | succ n ih =>
    intro l hlen hadj hlast
    cases l with
    | nil =>
      constructor
      · intro _ hne
        exact absurd rfl hne
      · intro w hw
        simp [splitSpace] at hw
    | cons c cs =>
      have hlen2 : cs.length ≤ n := by
        simpa using Nat.succ_le_succ_iff.mp (by simpa using hlen)
      by_cases hc : c = ' '
      · subst hc
        have hcsne : cs ≠ [] := by
          intro h0
          subst h0
          have hx : isWs ' ' = false := hlast
          exact absurd hx (by decide)
        have hhead : headNotSp cs := by
          cases cs with
          | nil => trivial
          | cons d t =>
            have hp := noAdjSp_pair hadj
            by_cases hd : isWs d = true
            · exact absurd ⟨by decide, hd⟩ hp
            · simpa [headNotSp] using hd
        have hmain := (ih cs hlen2 (noAdjSp_tail hadj) (lastNotSp_tail hlast)).1
          hhead hcsne
        constructor
        · intro hh _
          have hx : isWs ' ' = false := hh
          exact absurd hx (by decide)
        · intro w hw
          have hsp : splitSpace (' ' :: cs) = [] :: splitSpace cs := by
            simp [splitSpace]
          rw [hsp] at hw
          exact hmain w (by simpa using hw)
      · obtain ⟨v, vs, hsp⟩ : ∃ v vs, splitSpace cs = v :: vs := by
          cases h : splitSpace cs with
          | nil => exact absurd h (splitSpace_ne_nil cs)
          | cons v vs => exact ⟨v, vs, rfl⟩
        have htail := (ih cs hlen2 (noAdjSp_tail hadj) (lastNotSp_tail hlast)).2
        have hform : splitSpace (c :: cs) = (c :: v) :: vs := by
          simp [splitSpace, hc, hsp]
        constructor
        · intro _ _ w hw
          rw [hform] at hw
          rcases List.mem_cons.mp hw with hw | hw
          · subst hw
            simp
          · exact htail w (by rw [hsp]; simpa using hw)
        · intro w hw
          rw [hform] at hw
          simp only [List.tail_cons] at hw
          exact htail w (by rw [hsp]; simpa using hw)

theorem splitSpace_words_ne_nil (l : List Char) (h1 : headNotSp l)
    (h2 : lastNotSp l) (h3 : noAdjSp l) (h0 : l ≠ []) :
    ∀ w ∈ splitSpace l, w ≠ [] :=
  (splitSpace_words_aux l.length l le_rfl h3 h2).1 h1 h0

/-! ## Support lemmas: `joinWords` -/

theorem joinWords_ne_nil (ws : List (List Char)) (h0 : ws ≠ [])
    (h1 : ∀ w ∈ ws, w ≠ []) : joinWords ws ≠ [] := by
  cases ws with
  | nil => exact absurd rfl h0
  | cons w ws2 =>
    cases ws2 with
    | nil => simpa [joinWords] using h1 w (List.mem_cons_self w [])
    | cons w2 t =>
      simp only [joinWords]
      intro hx
      have h2 := (List.append_eq_nil.mp hx).2
      simp at h2

theorem joinWords_chars (ws : List (List Char))
    (h : ∀ w ∈ ws, ∀ c ∈ w, isLowerAlpha c = true) :
    ∀ c ∈ joinWords ws, isLowerAlpha c = true ∨ c = ' ' := by
  induction ws with
  | nil =>
    intro c hc
    simp [joinWords] at hc
  | cons w ws2 ih =>
    cases ws2 with
    | nil =>
      intro c hc
      simp only [joinWords] at hc
      exact Or.inl (h w (List.mem_cons_self _ _) c hc)
    | cons w2 t =>
      intro c hc
      simp only [joinWords] at hc
      rcases List.mem_append.mp hc with hc | hc
      · exact Or.inl (h w (List.mem_cons_self _ _) c hc)
      · rcases List.mem_cons.mp hc with hc | hc
        · exact Or.inr hc
        · exact ih (fun x hx => h x (List.mem_cons_of_mem w hx)) c hc

theorem noAdjSp_word_append (w rest : List Char)
    (hw : ∀ c ∈ w, isWs c = false)
    (hr : noAdjSp rest) (hrh : headNotSp rest) :
    noAdjSp (w ++ ' ' :: rest) := by
  induction w with
  | nil =>
    simp only [List.nil_append]
    exact noAdjSp_cons ' ' rest hr (Or.inl hrh)
  | cons c t ih =>
    have hrec := ih (fun x hx => hw x (List.mem_cons_of_mem c hx))
    simp only [List.cons_append]
    exact noAdjSp_cons c _ hrec (Or.inr (hw c (List.mem_cons_self c t)))

theorem joinWords_props (ws : List (List Char)) (h0 : ws ≠ [])
    (h1 : ∀ w ∈ ws, w ≠ []) (h2 : ∀ w ∈ ws, ∀ c ∈ w, isWs c = false) :
    noAdjSp (joinWords ws) ∧ headNotSp (joinWords ws) ∧
      lastNotSp (joinWords ws) := by
  induction ws with
  | nil => exact absurd rfl h0
  | cons w ws2 ih =>
    cases ws2 with
    | nil =>
      simp only [joinWords]
      have hcw := h2 w (List.mem_cons_self w [])
      refine ⟨noAdjSp_of_no_ws w hcw, ?_, lastNotSp_of_no_ws w hcw⟩
      cases w with
      | nil => trivial
      | cons c t => exact hcw c (List.mem_cons_self c t)
    | cons w2 t =>
      have hrec := ih (by simp) (fun x hx => h1 x (List.mem_cons_of_mem w hx))
        (fun x hx => h2 x (List.mem_cons_of_mem w hx))
      have hwne := h1 w (List.mem_cons_self _ _)
      have hwch := h2 w (List.mem_cons_self _ _)
      have hrne : joinWords (w2 :: t) ≠ [] :=
        joinWords_ne_nil _ (by simp) (fun x hx => h1 x (List.mem_cons_of_mem w hx))
      simp only [joinWords]
      refine ⟨noAdjSp_word_append w _ hwch hrec.1 hrec.2.1, ?_, ?_⟩
      · cases w with
        | nil => exact absurd rfl hwne
        | cons c t2 =>
          simp only [List.cons_append, headNotSp]
          exact hwch c (List.mem_cons_self _ _)
      · rw [lastNotSp_append w (' ' :: joinWords (w2 :: t)) (by simp)]
        exact lastNotSp_cons hrec.2.2 hrne

/-! ## The normalized string is well-formed -/

theorem normChars_props (s : String) :
    (∀ c ∈ normChars s, isLowerAlpha c = true ∨ c = ' ') ∧
      noAdjSp (normChars s) ∧ headNotSp (normChars s) ∧
      lastNotSp (normChars s) := by
  unfold normChars
  have hcoch : ∀ c ∈ collapseWs false (keepLetters s.data),
      isAlphaChar c = true ∨ c = ' ' := by
    intro c hc
    rcases collapseWs_chars false (keepLetters s.data) c hc with ⟨hm, hnw⟩ | h1
    · rcases keepLetters_chars s.data c hm with h3 | h3
      · exact Or.inl h3
      · exact absurd h3 (by simp [hnw])
    · exact Or.inr h1
  have hstch : ∀ c ∈ stripEnds (collapseWs false (keepLetters s.data)),
      isAlphaChar c = true ∨ c = ' ' :=
    fun c hc => hcoch c (stripEnds_mem _ hc)
  have hstp := stripEnds_props (collapseWs false (keepLetters s.data))
    (collapseWs_noAdj false (keepLetters s.data))
  have hf : ∀ c ∈ stripEnds (collapseWs false (keepLetters s.data)),
      isWs (pyLowerChar c) = isWs c := by
    intro c hc
    rcases hstch c hc with h1 | h1
    · have hnws : isWs c = false := isAlpha_not_ws c h1
      rcases Bool.or_eq_true_iff.mp h1 with h2 | h2
      · rw [hnws, isLower_not_ws _ (pyLowerChar_upper c h2)]
      · rw [pyLowerChar_lower_id c h2]
    · rw [h1, pyLowerChar_space]
  refine ⟨?_, noAdjSp_map_pyLower _ hf hstp.2.2, headNotSp_map_pyLower _ hf hstp.1,
    lastNotSp_map_pyLower _ hf hstp.2.1⟩
  intro c hc
  obtain ⟨a, ha, hac⟩ := List.mem_map.mp hc
  rcases hstch a ha with h1 | h1
  · rcases Bool.or_eq_true_iff.mp h1 with h2 | h2
    · exact Or.inl (hac ▸ pyLowerChar_upper a h2)
    · rw [← hac, pyLowerChar_lower_id a h2]
      exact Or.inl h2
  · rw [← hac, h1, pyLowerChar_space]
    exact Or.inr rfl

/-! ## Reformulations of `clean_text` and `pyJoin` -/

theorem clean_text_eq (s : String) (m : Int) :
    clean_text s m = ((splitSpace (normChars s)).filter
      (fun w => decide (m ≤ (w.length : Int)))).map String.mk := by
  unfold clean_text
  rw [List.filter_map]
  rfl

theorem pyJoin_map_mk (ws : List (List Char)) :
    pyJoin (ws.map String.mk) = String.mk (joinWords ws) := by
  unfold pyJoin
  rw [List.map_map]
  rw [show (String.data ∘ String.mk) = id from rfl, List.map_id]

/-- Cleaning the spaced join of nonempty, all-lowercase words of length
at least `m` returns exactly those words. -/
theorem clean_text_of_normal_words (ws : List (List Char)) (m : Int)
    (h0 : ws ≠ []) (h1 : ∀ w ∈ ws, w ≠ [])
    (h2 : ∀ w ∈ ws, ∀ c ∈ w, isLowerAlpha c = true)
    (h3 : ∀ w ∈ ws, m ≤ (w.length : Int)) :
    clean_text (String.mk (joinWords ws)) m = ws.map String.mk := by
  have hnw : ∀ w ∈ ws, ∀ c ∈ w, isWs c = false :=
    fun w hw c hc => isLower_not_ws c (h2 w hw c hc)
  have hch : ∀ c ∈ joinWords ws, isLowerAlpha c = true ∨ c = ' ' :=
    joinWords_chars ws h2
  have hprops := joinWords_props ws h0 h1 hnw
  have hnorm : normChars (String.mk (joinWords ws)) = joinWords ws := by
    unfold normChars
    have hdata : (String.mk (joinWords ws)).data = joinWords ws := rfl
    rw [hdata]
    rw [keepLetters_id _ (by
      intro c hc
      rcases hch c hc with h | h
      · exact Or.inl (by simp [isAlphaChar, h])
      · exact Or.inr (by rw [h]; decide))]
    rw [(collapseWs_id _ (by
      intro c hc hws2
      rcases hch c hc with h | h
      · exact absurd hws2 (by simp [isLower_not_ws c h])
      · exact h) hprops.1).1]
    rw [stripEnds_id _ hprops.2.1 hprops.2.2]
    exact lowerAll_id _ hch
  rw [clean_text_eq, hnorm]
  rw [splitSpace_joinWords ws h0 (by
    intro w hw c hc hsp
    have hx := hnw w hw c hc
    rw [hsp] at hx
    exact absurd hx (by decide))]
  rw [List.filter_eq_self.mpr (fun w hw => decide_eq_true (h3 w hw))]

/-! ## Claims C3 and C5 -/

/-- C3: cleaning is idempotent: tokenizing, re-joining with single
spaces, and tokenizing again with the same minimum length gives the same
token sequence, for every text and every minimum length. -/
theorem c3_clean_text_idempotent (s : String) (m : Int) :
    clean_text (pyJoin (clean_text s m)) m = clean_text s m := by
  have hprops := normChars_props s
  rw [clean_text_eq s m, pyJoin_map_mk]
  generalize hws : (splitSpace (normChars s)).filter
      (fun w => decide (m ≤ (w.length : Int))) = ws2
  by_cases hnorm : normChars s = []
  · rw [hnorm] at hws
    have hsp : splitSpace ([] : List Char) = [[]] := rfl
    rw [hsp] at hws
    by_cases hm : m ≤ 0
    · have hq : decide (m ≤ (0 : Int)) = true := decide_eq_true hm
      have hws2 : ws2 = [[]] := by
        rw [← hws]
        simp [List.filter, hq]
      rw [hws2]
      have hjw : joinWords [([] : List Char)] = [] := rfl
      rw [hjw, clean_text_eq]
      have hn0 : normChars (String.mk ([] : List Char)) = [] := rfl
      rw [hn0, hsp]
      simp [List.filter, hq]
    · have hq : decide (m ≤ (0 : Int)) = false := decide_eq_false hm
      have hws2 : ws2 = [] := by
        rw [← hws]
        simp [List.filter, hq]
      rw [hws2]
      have hjw : joinWords ([] : List (List Char)) = [] := rfl
      rw [hjw, clean_text_eq]
      have hn0 : normChars (String.mk ([] : List Char)) = [] := rfl
      rw [hn0, hsp]
      simp [List.filter, hq]
  · have hwordsne : ∀ w ∈ splitSpace (normChars s), w ≠ [] :=
      splitSpace_words_ne_nil _ hprops.2.2.1 hprops.2.2.2 hprops.2.1 hnorm
    have hwordslc : ∀ w ∈ splitSpace (normChars s), ∀ c ∈ w,
        isLowerAlpha c = true := by
      intro w hw c hc
      obtain ⟨hcl, hcs⟩ := mem_splitSpace (normChars s) w hw c hc
      rcases hprops.1 c hcl with h | h
      · exact h
      · exact absurd h hcs
    by_cases hnil : ws2 = []
    · have hm : ¬ m ≤ 0 := by
        intro hm0
        have hfil : (splitSpace (normChars s)).filter
            (fun w => decide (m ≤ (w.length : Int))) = splitSpace (normChars s) :=
          List.filter_eq_self.mpr
            (fun w _ => decide_eq_true (le_trans hm0 (Int.natCast_nonneg _)))
        rw [hfil, hnil] at hws
        exact splitSpace_ne_nil _ hws
      rw [hnil]
      have hjw : joinWords ([] : List (List Char)) = [] := rfl
      rw [hjw, clean_text_eq]
      have hn0 : normChars (String.mk ([] : List Char)) = [] := rfl
      have hsp : splitSpace ([] : List Char) = [[]] := rfl
      have hq : decide (m ≤ (0 : Int)) = false := decide_eq_false hm
      rw [hn0, hsp]
      simp [List.filter, hq]
    · refine clean_text_of_normal_words ws2 m hnil ?_ ?_ ?_
      · intro w hw
        rw [← hws] at hw
        exact hwordsne w (List.mem_filter.mp hw).1
      · intro w hw
        rw [← hws] at hw
        exact hwordslc w (List.mem_filter.mp hw).1
      · intro w hw
        rw [← hws] at hw
        exact of_decide_eq_true (List.mem_filter.mp hw).2

/-- C5: the specification claims every token returned by the cleaner
consists of one or more lowercase ASCII letters for every configured
minimum length.  False at `min_len = 0`: cleaning the empty string gives
the single empty token (Python `"".split(" ") == ['']`), which has no
letters. -/
theorem c5_empty_token_counterexample :
    ¬ (∀ t ∈ clean_text "" 0, lowerWord t = true) := by decide

/-- C5 (amended): whenever the configured minimum length is at least 1
(the CLI default is 3), every token returned by the cleaner consists of
one or more lowercase ASCII letters and has length at least `min_len`;
for `min_len ≤ 0` the cleaner can additionally return a single empty
token. -/
theorem c5_tokens_lowercase_minlen (s : String) (m : Int) (hm : 1 ≤ m) :
    ∀ t ∈ clean_text s m, lowerWord t = true ∧ m ≤ (t.length : Int) := by
  intro t ht
  unfold clean_text at ht
  rw [List.mem_filter] at ht
  obtain ⟨hmem, hlenb⟩ := ht
  have hlen : m ≤ (t.length : Int) := of_decide_eq_true hlenb
  obtain ⟨w, hw, hwt⟩ := List.mem_map.mp hmem
  refine ⟨?_, hlen⟩
  have hdata : t.data = w := by rw [← hwt]
  have hprops := normChars_props s
  have hchars : ∀ c ∈ w, isLowerAlpha c = true := by
    intro c hc
    obtain ⟨hcl, hcs⟩ := mem_splitSpace (normChars s) w hw c hc
    rcases hprops.1 c hcl with h1 | h1
    · exact h1
    · exact absurd h1 hcs
  have hne : w ≠ [] := by
    intro h0
    rw [← hwt, h0] at hlen
    have hz : (String.mk ([] : List Char)).length = 0 := rfl
    rw [hz] at hlen
    omega
  simp only [lowerWord, hdata, Bool.and_eq_true, Bool.not_eq_true',
    List.all_eq_true]
  refine ⟨?_, hchars⟩
  rw [Bool.eq_false_iff]
  intro hx
  exact hne (List.isEmpty_iff.mp hx)

/-- Witness for `c5_tokens_lowercase_minlen`: the token "hello" of
cleaning "Hello, x!" with the default minimum length 3. -/
theorem c5_tokens_lowercase_minlen_witness :
    lowerWord "hello" = true ∧ (3 : Int) ≤ (("hello" : String).length : Int) :=
  c5_tokens_lowercase_minlen "Hello, x!" 3 (by decide) "hello" (by decide)

/-! ## Claim C4 -/

/-- C4: for every token stream and stopword set, the raw count of a word
that occurs in the stream is at least its filtered count, with equality
exactly when the word is not a stopword. -/
theorem c4_raw_ge_filtered (all_words stopwords : List String) (word : String)
    (h : 0 < raw_counts all_words word) :
    counts all_words stopwords word ≤ raw_counts all_words word ∧
      (raw_counts all_words word = counts all_words stopwords word ↔
        word ∉ stopwords) := by
  refine ⟨(List.filter_sublist all_words).count_le word, ?_, ?_⟩
  · intro heq hmem
    have hzero : counts all_words stopwords word = 0 := by
      unfold counts filtered_words
      rw [List.count_eq_zero]
      intro hmem2
      have hx := (List.mem_filter.mp hmem2).2
      simp [hmem] at hx
    rw [hzero] at heq
    unfold raw_counts at heq h
    omega
  · intro hnmem
    unfold counts filtered_words raw_counts
    rw [List.count_filter (by simp [hnmem])]

/-- Witness for `c4_raw_ge_filtered`: the stream ["the","cat"] with
stopword set ["the"] at the occurring word "cat". -/
theorem c4_raw_ge_filtered_witness :
    counts ["the", "cat"] ["the"] "cat" ≤ raw_counts ["the", "cat"] "cat" ∧
      (raw_counts ["the", "cat"] "cat" = counts ["the", "cat"] ["the"] "cat" ↔
        "cat" ∉ (["the"] : List String)) :=
  c4_raw_ge_filtered ["the", "cat"] ["the"] "cat" (by decide)

/-! ## Support lemmas: the Python string order and `sorted` -/

theorem charListLe_total : ∀ (a b : List Char),
    charListLe a b = true ∨ charListLe b a = true
  | [], _ => Or.inl rfl
  | _ :: _, [] => Or.inr rfl
  | a :: as, b :: bs => by
    by_cases hab : a = b
    · subst hab
      simp only [charListLe, if_pos rfl]
      exact charListLe_total as bs
    · rcases lt_or_gt_of_ne hab with h | h
      · refine Or.inl ?_
        simp only [charListLe, if_neg hab]
        exact decide_eq_true h
      · refine Or.inr ?_
        simp only [charListLe, if_neg (Ne.symm hab)]
        exact decide_eq_true h

theorem charListLe_trans : ∀ (a b c : List Char),
    charListLe a b = true → charListLe b c = true → charListLe a c = true
  | [], _, _, _, _ => rfl
  | _ :: _, [], _, h1, _ => by simp [charListLe] at h1
  | _ :: _, _ :: _, [], _, h2 => by simp [charListLe] at h2
  | a :: as, b :: bs, c :: cs, h1, h2 => by
    simp only [charListLe] at h1 h2 ⊢
    by_cases hab : a = b
    · subst hab
      rw [if_pos rfl] at h1
      by_cases hac : a = c
      · subst hac
        rw [if_pos rfl] at h2 ⊢
        exact charListLe_trans as bs cs h1 h2
      · rw [if_neg hac] at h2 ⊢
        exact h2
    · rw [if_neg hab] at h1
      have hlt1 : a < b := of_decide_eq_true h1
      by_cases hbc : b = c
      · subst hbc
        rw [if_neg hab]
        exact h1
      · rw [if_neg hbc] at h2
        have hlt2 : b < c := of_decide_eq_true h2
        have hlt3 : a < c := lt_trans hlt1 hlt2
        rw [if_neg (ne_of_lt hlt3)]
        exact decide_eq_true hlt3

theorem pySorted_perm (l : List String) : (pySorted l).Perm l :=
  List.perm_insertionSort pyLeRel l

theorem pySorted_sorted (l : List String) : List.Sorted pyLeRel (pySorted l) :=
  @List.sorted_insertionSort String pyLeRel _
    ⟨fun a b => charListLe_total a.data b.data⟩
    ⟨fun a b c => charListLe_trans a.data b.data c.data⟩ l

theorem pySorted_nil_iff (l : List String) : pySorted l = [] ↔ l = [] := by
  constructor
  · intro h
    have hp := pySorted_perm l
    rw [h] at hp
    exact (hp.symm).eq_nil
  · intro h
    rw [h]
    rfl

theorem pySorted_mem {f : String} (l : List String) (h : f ∈ pySorted l) :
    f ∈ l :=
  (pySorted_perm l).subset h

/-- A name matching the glob `*.tex` cannot match `*.pdf`. -/
theorem tex_not_pdf (f : String) (h : texName f = true) : pdfName f = false := by
  unfold texName hasSuffix at h
  unfold pdfName hasSuffix
  rw [show (".tex" : String).data.reverse = ['x', 'e', 't', '.'] from rfl] at h
  rw [show (".pdf" : String).data.reverse = ['f', 'd', 'p', '.'] from rfl]
  cases hrev : f.data.reverse with
  | nil =>
    rw [hrev] at h
    simp [List.isPrefixOf] at h
  | cons c cs =>
    rw [hrev] at h
    simp only [List.isPrefixOf, Bool.and_eq_true, beq_iff_eq] at h
    obtain ⟨hc, -⟩ := h
    subst hc
    simp [List.isPrefixOf]

/-! ## Claims C6 - C10 -/

/-- C6: with the dependency available, an existing input path and a
passing stopword stage, the run processes exactly one of the two file
sets: the sorted `*.tex` matches when any exist (every `*.pdf` match is
ignored), else the sorted `*.pdf` matches, and with neither it fails
with the no-input condition and exit code 1. -/
theorem c6_input_resolution (args : Args) (w : World)
    (hdep : w.hasWordcloud = true) (hex : w.inputExists = true)
    (hstop : w.stopExists (stopPathOf args) = true ∨ args.stopwords = "") :
    (dirGlob w texName ≠ [] →
      mainModel args w = .done (texFilesOf w) true (allWordsOf args w)
          (stopwordsOf args w) args.output ∧
        (texFilesOf w).Perm (dirGlob w texName) ∧
        List.Sorted pyLeRel (texFilesOf w) ∧
        ∀ f ∈ texFilesOf w, pdfName f = false) ∧
    (dirGlob w texName = [] → dirGlob w pdfName ≠ [] → w.hasPdfminer = true →
      mainModel args w = .done (pdfsOf w) false (allWordsOf args w)
          (stopwordsOf args w) args.output ∧
        (pdfsOf w).Perm (dirGlob w pdfName) ∧
        List.Sorted pyLeRel (pdfsOf w)) ∧
    (dirGlob w texName = [] → dirGlob w pdfName = [] →
      mainModel args w = .noInputFiles ∧ exitCode (mainModel args w) = 1) := by
  have hstopb : (!w.stopExists (stopPathOf args) && !(args.stopwords == "")) =
      false := by
    rcases hstop with h | h
    · rw [h]
      rfl
    · rw [h]
      simp
  refine ⟨?_, ?_, ?_⟩
  · intro htex
    have htexE : (texFilesOf w).isEmpty = false := by
      rw [Bool.eq_false_iff]
      intro hx
      exact htex ((pySorted_nil_iff _).mp (List.isEmpty_iff.mp hx))
    refine ⟨by simp [mainModel, hdep, hex, htexE, hstopb], pySorted_perm _,
      pySorted_sorted _, ?_⟩
    intro f hf
    have hmem := pySorted_mem _ hf
    unfold dirGlob at hmem
    cases hd : w.inputIsDir with
    | false =>
      rw [hd] at hmem
      simp at hmem
    | true =>
      rw [hd] at hmem
      simp only [if_true, ite_true] at hmem
      exact tex_not_pdf f (List.mem_filter.mp hmem).2
  · intro htex hpdf hpm
    have htexNil : texFilesOf w = [] := (pySorted_nil_iff _).mpr htex
    have htexE : (texFilesOf w).isEmpty = true := List.isEmpty_iff.mpr htexNil
    have hpdfE : (pdfsOf w).isEmpty = false := by
      rw [Bool.eq_false_iff]
      intro hx
      exact hpdf ((pySorted_nil_iff _).mp (List.isEmpty_iff.mp hx))
    exact ⟨by simp [mainModel, hdep, hex, htexE, hpdfE, hstopb, hpm],
      pySorted_perm _, pySorted_sorted _⟩
  · intro htex hpdf
    have htexE : (texFilesOf w).isEmpty = true :=
      List.isEmpty_iff.mpr ((pySorted_nil_iff _).mpr htex)
    have hpdfE : (pdfsOf w).isEmpty = true :=
      List.isEmpty_iff.mpr ((pySorted_nil_iff _).mpr hpdf)
    have hmain : mainModel args w = .noInputFiles := by
      simp [mainModel, hdep, hex, htexE, hpdfE]
    exact ⟨hmain, by rw [hmain]; rfl⟩

/-- Witness for `c6_input_resolution`: a directory with `a.tex` and
`b.pdf`; only the LaTeX file is processed. -/
theorem c6_input_resolution_witness :
    mainModel {} wtWorld = .done (texFilesOf wtWorld) true
        (allWordsOf {} wtWorld) (stopwordsOf {} wtWorld) (({} : Args).output) ∧
      (texFilesOf wtWorld).Perm (dirGlob wtWorld texName) ∧
      List.Sorted pyLeRel (texFilesOf wtWorld) ∧
      ∀ f ∈ texFilesOf wtWorld, pdfName f = false :=
  (c6_input_resolution {} wtWorld rfl rfl (Or.inr rfl)).1 (by decide)

/-- C7: an explicitly named stopwords file that does not exist aborts
the run with exit code 1, whereas a missing conventional fallback file
is silently skipped and the run succeeds. -/
theorem c7_stopwords_missing_behavior (args : Args) (w : World)
    (hdep : w.hasWordcloud = true) (hex : w.inputExists = true)
    (htex : dirGlob w texName ≠ []) :
    (args.stopwords ≠ "" → w.stopExists args.stopwords = false →
      mainModel args w = .stopwordsNotFound ∧
        exitCode (mainModel args w) = 1) ∧
    (args.stopwords = "" → w.stopExists fallbackStopPath = false →
      mainModel args w = .done (texFilesOf w) true (allWordsOf args w)
          (w.builtinStopwords ++ parseExtra args.extra_stopwords) args.output ∧
        exitCode (mainModel args w) = 0) := by
  have htexE : (texFilesOf w).isEmpty = false := by
    rw [Bool.eq_false_iff]
    intro hx
    exact htex ((pySorted_nil_iff _).mp (List.isEmpty_iff.mp hx))
  constructor
  · intro hne hnex
    have hpath : stopPathOf args = args.stopwords := by
      unfold stopPathOf
      rw [if_pos hne]
    have hcond : (!w.stopExists (stopPathOf args) && !(args.stopwords == "")) =
        true := by
      rw [hpath, hnex]
      simp [hne]
    have hmain : mainModel args w = .stopwordsNotFound := by
      simp [mainModel, hdep, hex, htexE, hcond]
    exact ⟨hmain, by rw [hmain]; rfl⟩
  · intro hemp hnex
    have hpath : stopPathOf args = fallbackStopPath := by
      unfold stopPathOf
      rw [if_neg (by simp [hemp])]
    have hcond : (!w.stopExists (stopPathOf args) && !(args.stopwords == "")) =
        false := by
      rw [hemp]
      simp
    have hsw : stopwordsOf args w =
        w.builtinStopwords ++ parseExtra args.extra_stopwords := by
      unfold stopwordsOf
      rw [hpath, hnex]
      simp
    have hmain : mainModel args w = .done (texFilesOf w) true (allWordsOf args w)
        (stopwordsOf args w) args.output := by
      simp [mainModel, hdep, hex, htexE, hcond]
    rw [hmain, hsw]
    exact ⟨rfl, rfl⟩

/-- Witness for `c7_stopwords_missing_behavior`: no `--stopwords`
argument and an absent fallback file; the run completes with code 0. -/
theorem c7_stopwords_missing_behavior_witness :
    mainModel {} wtWorld = .done (texFilesOf wtWorld) true
        (allWordsOf {} wtWorld)
        (wtWorld.builtinStopwords ++ parseExtra (({} : Args).extra_stopwords))
        (({} : Args).output) ∧
      exitCode (mainModel {} wtWorld) = 0 :=
  (c7_stopwords_missing_behavior {} wtWorld rfl rfl (by decide)).2 rfl rfl

/-- C8: when the input path does not exist the run exits with code 1 and
writes no PNG (the failure precedes any rendering). -/
theorem c8_missing_input_no_output (args : Args) (w : World)
    (hex : w.inputExists = false) :
    exitCode (mainModel args w) = 1 ∧ pngWritten (mainModel args w) = none := by
  cases hdw : w.hasWordcloud with
  | false =>
    have hmain : mainModel args w = .missingWordcloud := by
      simp [mainModel, hdw]
    rw [hmain]
    exact ⟨rfl, rfl⟩
  | true =>
    have hmain : mainModel args w = .inputNotFound := by
      simp [mainModel, hdw, hex]
    rw [hmain]
    exact ⟨rfl, rfl⟩

/-- Witness for `c8_missing_input_no_output` at a concrete missing
input directory. -/
theorem c8_missing_input_no_output_witness :
    exitCode (mainModel {} { wtWorld with inputExists := false }) = 1 ∧
      pngWritten (mainModel {} { wtWorld with inputExists := false }) = none :=
  c8_missing_input_no_output {} { wtWorld with inputExists := false } rfl

/-- C9: when the input path exists but is a regular file, the existence
check passes, globbing yields nothing, and the run fails with the
no-input condition and exit code 1. -/
theorem c9_file_input_no_files (args : Args) (w : World)
    (hdep : w.hasWordcloud = true) (hex : w.inputExists = true)
    (hnd : w.inputIsDir = false) :
    mainModel args w = .noInputFiles ∧ exitCode (mainModel args w) = 1 := by
  have htex : texFilesOf w = [] := by
    unfold texFilesOf dirGlob
    rw [hnd, if_neg Bool.false_ne_true]
    rfl
  have hpdf : pdfsOf w = [] := by
    unfold pdfsOf dirGlob
    rw [hnd, if_neg Bool.false_ne_true]
    rfl
  have hmain : mainModel args w = .noInputFiles := by
    simp [mainModel, hdep, hex, htex, hpdf]
  exact ⟨hmain, by rw [hmain]; rfl⟩

/-- Witness for `c9_file_input_no_files`: the input path exists but is
not a directory. -/
theorem c9_file_input_no_files_witness :
    mainModel {} { wtWorld with inputIsDir := false } = .noInputFiles ∧
      exitCode (mainModel {} { wtWorld with inputIsDir := false }) = 1 :=
  c9_file_input_no_files {} { wtWorld with inputIsDir := false } rfl rfl rfl

/-- C10: the raw frequency table does not depend on the stopword
configuration: two successful runs over the same inputs and minimum
length that differ only in their stopword sources produce the same
token stream, hence identical raw counts for every word. -/
theorem c10_raw_counts_independent (a1 a2 : Args) (w1 w2 : World)
    (hin : a1.input = a2.input) (hout : a1.output = a2.output)
    (hmin : a1.min_len = a2.min_len) (hmax : a1.max_words = a2.max_words)
    (hpt : a1.print_top = a2.print_top) (hdwd : a1.debug_words = a2.debug_words)
    (hwc : w1.hasWordcloud = w2.hasWordcloud)
    (hpm : w1.hasPdfminer = w2.hasPdfminer)
    (hbs : w1.builtinStopwords = w2.builtinStopwords)
    (hie : w1.inputExists = w2.inputExists)
    (hid : w1.inputIsDir = w2.inputIsDir)
    (hde : w1.dirEntries = w2.dirEntries)
    (hrt : w1.readText = w2.readText)
    (hpdt : w1.pdfText = w2.pdfText)
    (p1 p2 : List String) (u1 u2 : Bool) (aw1 aw2 sw1 sw2 : List String)
    (o1 o2 : String)
    (h1 : mainModel a1 w1 = .done p1 u1 aw1 sw1 o1)
    (h2 : mainModel a2 w2 = .done p2 u2 aw2 sw2 o2) :
    aw1 = aw2 ∧ ∀ word, raw_counts aw1 word = raw_counts aw2 word := by
  have hinv : ∀ (a : Args) (w : World) p u aw sw o,
      mainModel a w = .done p u aw sw o → aw = allWordsOf a w := by
    intro a w p u aw sw o h
    unfold mainModel at h
    split_ifs at h <;> try (exact RunOutcome.noConfusion h)
    all_goals
      injection h with hp hu haw hsw ho
      exact haw.symm
  have he1 : aw1 = allWordsOf a1 w1 := hinv a1 w1 _ _ _ _ _ h1
  have he2 : aw2 = allWordsOf a2 w2 := hinv a2 w2 _ _ _ _ _ h2
  have htex : texFilesOf w1 = texFilesOf w2 := by
    unfold texFilesOf dirGlob
    rw [hid, hde]
  have hpdf : pdfsOf w1 = pdfsOf w2 := by
    unfold pdfsOf dirGlob
    rw [hid, hde]
  have haw : allWordsOf a1 w1 = allWordsOf a2 w2 := by
    unfold allWordsOf
    rw [htex, hpdf, hmin, hrt, hpdt]
  have heq : aw1 = aw2 := by rw [he1, he2, haw]
  exact ⟨heq, fun word => by rw [heq]⟩

/-- Witness for `c10_raw_counts_independent`: the same directory read
once with no stopword sources and once with a stopword file and extra
stopwords; the raw counts agree. -/
theorem c10_raw_counts_independent_witness :
    raw_counts ["hello", "hello", "world"] "hello" =
      raw_counts ["hello", "hello", "world"] "hello" :=
  (c10_raw_counts_independent {} { extra_stopwords := "x" } wtWorld wtWorldStop
    rfl rfl rfl rfl rfl rfl rfl rfl rfl rfl rfl rfl rfl rfl
    ["a.tex"] ["a.tex"] true true ["hello", "hello", "world"]
    ["hello", "hello", "world"] ["the"] ["the", "hello", "x"]
    "wordcloud.png" "wordcloud.png" (by decide) (by decide)).2 "hello"
